import Mathlib

/-!
go-monad: Stream pipeline and Optional container

A shallow embedding of `internal/monad/stream/stream.go` and
`internal/monad/optional/optional.go`.

Modelling conventions:

* A Go channel is modelled by what its single consumer can observe: the
  values that its single producer goroutine sends, in order, followed either
  by the `close` or by nothing at all (`closed = false`, every further
  receive parks the receiver forever).  Every stage of a pipeline has exactly
  one producer and one consumer and shares no other state, so the sequence
  observed on a channel is a function of the sequence observed upstream; the
  producer goroutine is therefore run against the queue of its output
  channel.  A `nil` channel is a channel on which nothing is ever sent and
  which is never closed.
* `for element := range ch` is the loop `forRange`; it reports the loop state
  at the point where it stops and whether it left the loop (channel closed)
  or parked on a receive.
* The loops of the short-circuiting terminals are not structurally bounded,
  they take fuel: one unit per evaluation of the loop condition.  `none`
  means the fuel ran out.
* `x == nil` is modelled by the class `Nillable`: the types for which the
  comparison is meaningful, whose zero value is `nil`.
* A function passed by the caller that has side effects is a state-passing
  function on a state `σ` of the caller (`optional.effect`, `ForEach`).
  Where the function runs inside the goroutine of a stage (`Peek`), the
  channels of `stream.effect` carry, with each value, the side effects that
  the producing side has performed since the previous send, so that a
  consumer has exactly the effects of what it received behind it.
-/

namespace GoMonad

/-! ## Go values that can be compared with `nil` -/

/-- Every Go type has a zero value: `*new(T)`, `var x T`, a field left out of
a struct literal. -/
class ZeroValue (T : Type) where
  zero : T

/-- Types whose values can be compared with `nil` (pointers, interfaces, ...):
`isNil x` is `x == nil`, and `nil` is the zero value of such a type. -/
class Nillable (T : Type) extends ZeroValue T where
  isNil : T → Bool
  isNil_iff : ∀ v : T, isNil v = true ↔ v = zero

instance instZeroValueNat : ZeroValue Nat := ⟨0⟩

instance instZeroValueInt : ZeroValue Int := ⟨0⟩

instance instZeroValueString : ZeroValue String := ⟨""⟩

/-- Pointer / interface values: `none` is `nil`, `some a` is a non-nil
reference to (a boxed) `a`. -/
instance instNillableOption (α : Type) : Nillable (Option α) where
  zero := none
  isNil := Option.isNone
  isNil_iff := by
    intro v
    cases v <;> simp

/-- How a call ends when no fuel is involved: it returns, or its goroutine is
parked forever on a channel receive. -/
inductive Outcome (α : Type) where
  | returned (a : α)
  | blocked
  deriving DecidableEq, Repr

/-- Apply a function to the returned value. -/
def Outcome.map {α β : Type} (f : α → β) : Outcome α → Outcome β
  | Outcome.returned a => Outcome.returned (f a)
  | Outcome.blocked => Outcome.blocked

/-- The range of Go's `uint` on a 64-bit platform: arithmetic on it wraps. -/
def uintSize : Nat := 2 ^ 64

/-! ## Channels -/

/-- The consumer's view of a channel: the values still to be received, and
whether the producer closes the channel after them. -/
structure Chan (T : Type) where
  queue : List T
  closed : Bool
  deriving DecidableEq, Repr

namespace Chan

/-- `make(chan T)`. -/
def make {T : Type} : Chan T := ⟨[], false⟩

/-- The zero value of a channel type: the `nil` channel. -/
def nil {T : Type} : Chan T := ⟨[], false⟩

/-- `ch <- v`. -/
def send {T : Type} (ch : Chan T) (v : T) : Chan T := { ch with queue := ch.queue ++ [v] }

/-- `close(ch)`. -/
def close {T : Type} (ch : Chan T) : Chan T := { ch with closed := true }

end Chan

/-- What `value, ok := <-ch` observes: a value (and the channel after it),
`ok == false` on a closed and drained channel, or it never completes. -/
inductive Recv (T : Type) where
  | value (v : T) (rest : Chan T)
  | closed
  | blocked

/-- `<-ch`. -/
def Chan.recv {T : Type} (ch : Chan T) : Recv T :=
  match ch.queue with
  | v :: rest => Recv.value v { ch with queue := rest }
  | [] => if ch.closed then Recv.closed else Recv.blocked

/-- The loop `for element := range ch { state = body state element }` over
the values queued on a channel: the state when the loop stops, and `true` when
it stops because the channel is closed (the statements after the loop run) or
`false` when it stops parked on a receive. -/
def forRangeQueue {T σ : Type} (body : σ → T → σ) (closed : Bool) : List T → σ → σ × Bool
  | [], state => (state, closed)
  | element :: rest, state => forRangeQueue body closed rest (body state element)

/-- `for element := range ch { ... }`. -/
def forRange {T σ : Type} (ch : Chan T) (body : σ → T → σ) (init : σ) : σ × Bool :=
  forRangeQueue body ch.closed ch.queue init

/-- `go func() { defer close(out); run }()` for a goroutine whose only effect
is on its output channel: `run` gives the channel after the sends and whether
the body ran to its end; the deferred `close` runs only in that case. -/
def goProducer {T : Type} (run : Chan T × Bool) : Chan T :=
  if run.2 then run.1.close else run.1

/-! ## Optional -/

namespace optional

/-- `type Optional[T any] struct { value T }`. -/
structure Optional (T : Type) where
  value : T
  deriving DecidableEq, Repr

/-- `func Empty[T any]() *Optional[T]`. -/
def Empty {T : Type} [ZeroValue T] : Optional T := ⟨ZeroValue.zero⟩

/-- `func Of[T any](value T) *Optional[T]`. -/
def Of {T : Type} (value : T) : Optional T := ⟨value⟩

/-- `func IsPresent`: `optional.value != nil`. -/
def IsPresent {T : Type} [Nillable T] (o : Optional T) : Bool := !Nillable.isNil o.value

/-- `func IsEmpty`: `optional.value == nil`. -/
def IsEmpty {T : Type} [Nillable T] (o : Optional T) : Bool := Nillable.isNil o.value

/-- `func FlatMap`. -/
def FlatMap {I O : Type} [Nillable I] [ZeroValue O] (o : Optional I)
    (flatMapper : I → Optional O) : Optional O :=
  if IsEmpty o then Empty else flatMapper o.value

/-- `func Map`. -/
def Map {I O : Type} [Nillable I] [ZeroValue O] (o : Optional I) (mapper : I → O) : Optional O :=
  if IsEmpty o then Empty else Of (mapper o.value)

/-- `func Filter`. -/
def Filter {T : Type} [Nillable T] (o : Optional T) (predicate : T → Bool) : Optional T :=
  if IsEmpty o || !predicate o.value then Empty else Of o.value

/-- `func Or`. -/
def Or {T : Type} [Nillable T] (o : Optional T) (optionalSupplier : Unit → Optional T) :
    Optional T :=
  if IsEmpty o then optionalSupplier () else Of o.value

/-- `func Get`: the pair `(T, error)`, where `none` is the `nil` error and
`some msg` is `errors.New(msg)`. -/
def Get {T : Type} [Nillable T] (o : Optional T) : T × Option String :=
  if IsEmpty o then (ZeroValue.zero, some "cannot get value from empty optional")
  else (o.value, none)

/-! The same functions when the function they are given has side effects: it
reads and updates a state `σ` of the caller, which is threaded through the
call.  A function that is not invoked leaves the state as it is. -/
namespace effect

/-- `func FlatMap`, for a `flatMapper` with side effects. -/
def FlatMap {σ I O : Type} [Nillable I] [ZeroValue O] (o : Optional I)
    (flatMapper : I → σ → Optional O × σ) (world : σ) : Optional O × σ :=
  if IsEmpty o then (Empty, world) else flatMapper o.value world

/-- `func Map`, for a `mapper` with side effects. -/
def Map {σ I O : Type} [Nillable I] [ZeroValue O] (o : Optional I) (mapper : I → σ → O × σ)
    (world : σ) : Optional O × σ :=
  if IsEmpty o then (Empty, world)
  else
    let r := mapper o.value world
    (Of r.1, r.2)

/-- `func Filter`, for a `predicate` with side effects; `||` evaluates its
right operand only when the left one is false. -/
def Filter {σ T : Type} [Nillable T] (o : Optional T) (predicate : T → σ → Bool × σ)
    (world : σ) : Optional T × σ :=
  if IsEmpty o then (Empty, world)
  else
    let r := predicate o.value world
    if !r.1 then (Empty, r.2) else (Of o.value, r.2)

/-- `func Or`, for an `optionalSupplier` with side effects. -/
def Or {σ T : Type} [Nillable T] (o : Optional T) (optionalSupplier : σ → Optional T × σ)
    (world : σ) : Optional T × σ :=
  if IsEmpty o then optionalSupplier world else (Of o.value, world)

end effect

end optional

/-! ## Stream -/

namespace stream

/-- `type Stream[T any] struct { elements chan T }`. -/
structure Stream (T : Type) where
  elements : Chan T
  deriving DecidableEq, Repr

/-- `func Empty[T any]() *Stream[T]`: the struct literal leaves `elements` at
its zero value, the `nil` channel. -/
def Empty {T : Type} : Stream T := ⟨Chan.nil⟩

/-- `func Of[T any](elements ...T) *Stream[T]`: the goroutine sends every
element in order, then the deferred `close` runs. -/
def Of {T : Type} (elements : List T) : Stream T :=
  let stream : Chan T := Chan.make
  ⟨goProducer (elements.foldl (fun ch element => ch.send element) stream, true)⟩

/-- The body of the outer loop of the goroutine of `FlatMap`: the inner loop
`for subElement := range flatMapper(element).elements { outputChannel <- subElement }`.
The loop state is the output channel and whether the goroutine is still
running: once an inner loop has parked on a receive it makes no further step. -/
def flatMapBody {I O : Type} (flatMapper : I → Stream O) (st : Chan O × Bool) (element : I) :
    Chan O × Bool :=
  if st.2 then
    forRange (flatMapper element).elements (fun out subElement => out.send subElement) st.1
  else st

/-- `func FlatMap`. -/
def FlatMap {I O : Type} (inputStream : Stream I) (flatMapper : I → Stream O) : Stream O :=
  let outputChannel : Chan O := Chan.make
  let outer := forRange inputStream.elements (flatMapBody flatMapper) (outputChannel, true)
  ⟨goProducer (outer.1.1, outer.1.2 && outer.2)⟩

/-- `func Map`. -/
def Map {I O : Type} (inputStream : Stream I) (mapper : I → O) : Stream O :=
  let outputChannel : Chan O := Chan.make
  ⟨goProducer (forRange inputStream.elements
    (fun out element => out.send (mapper element)) outputChannel)⟩

/-- `func Filter`. -/
def Filter {T : Type} (inputStream : Stream T) (predicate : T → Bool) : Stream T :=
  let outputChannel : Chan T := Chan.make
  ⟨goProducer (forRange inputStream.elements
    (fun out element => if predicate element then out.send element else out) outputChannel)⟩

/-- `func Skip`: `index` is a `uint`, `index++` wraps. -/
def Skip {T : Type} (inputStream : Stream T) (skip : Nat) : Stream T :=
  let outputChannel : Chan T := Chan.make
  let index : Nat := 0
  let run := forRange inputStream.elements
    (fun (st : Chan T × Nat) element =>
      (if st.2 ≥ skip then st.1.send element else st.1, (st.2 + 1) % uintSize))
    (outputChannel, index)
  ⟨goProducer (run.1.1, run.2)⟩

/-- `func Limit`: `index` is a `uint`, `index++` wraps. -/
def Limit {T : Type} (inputStream : Stream T) (limit : Nat) : Stream T :=
  let outputChannel : Chan T := Chan.make
  let index : Nat := 0
  let run := forRange inputStream.elements
    (fun (st : Chan T × Nat) element =>
      (if st.2 < limit then st.1.send element else st.1, (st.2 + 1) % uintSize))
    (outputChannel, index)
  ⟨goProducer (run.1.1, run.2)⟩

/-- `func ToSlice`. -/
def ToSlice {T : Type} (inputStream : Stream T) : Outcome (List T) :=
  let output : List T := []
  match forRange inputStream.elements (fun output element => output ++ [element]) output with
  | (output, true) => Outcome.returned output
  | (_, false) => Outcome.blocked

/-- `func Reduce`: `var output O` starts at the zero value of `O`. -/
def Reduce {I O : Type} [ZeroValue O] (inputStream : Stream I) (reducer : O → I → O) :
    Outcome (optional.Optional O) :=
  let output : O := ZeroValue.zero
  match forRange inputStream.elements (fun output element => reducer output element) output with
  | (output, true) => Outcome.returned (optional.Of output)
  | (_, false) => Outcome.blocked

/-- `func ReduceWithIdentity`. -/
def ReduceWithIdentity {I O : Type} (inputStream : Stream I) (identity : O) (reducer : O → I → O) :
    Outcome O :=
  let output : O := identity
  match forRange inputStream.elements (fun output element => reducer output element) output with
  | (output, true) => Outcome.returned output
  | (_, false) => Outcome.blocked

/-- The loop of `FindFirst`, `for output == nil { select { case value, ok :=
<-ch: ... } }`, from a channel state and a value of `output`; it gives
`output` and the channel when the loop is left.  The `break` under `!ok`
leaves the `select` statement, which is the innermost statement it can
terminate, so the next thing to run is the loop condition. -/
def FindFirstLoop {T : Type} [Nillable T] (predicate : T → Bool) :
    Nat → Chan T → T → Option (Outcome (T × Chan T))
  | 0, _, _ => none
  | fuel + 1, ch, output =>
    if Nillable.isNil output then
      match ch.recv with
      | Recv.value value rest =>
        FindFirstLoop predicate fuel rest (if predicate value then value else output)
      | Recv.closed => FindFirstLoop predicate fuel ch output
      | Recv.blocked => some Outcome.blocked
    else some (Outcome.returned (output, ch))

/-- `func FindFirst`: `var output T` starts at the zero value. -/
def FindFirst {T : Type} [Nillable T] (fuel : Nat) (inputStream : Stream T)
    (predicate : T → Bool) : Option (Outcome (optional.Optional T)) :=
  let output : T := ZeroValue.zero
  (FindFirstLoop predicate fuel inputStream.elements output).map
    (Outcome.map fun r => optional.Of r.1)

/-- The loop of `AnyMatch`, `for !output { select { ... } }`; the `break`
leaves the `select` only. -/
def AnyMatchLoop {T : Type} (predicate : T → Bool) :
    Nat → Chan T → Bool → Option (Outcome (Bool × Chan T))
  | 0, _, _ => none
  | fuel + 1, ch, output =>
    if !output then
      match ch.recv with
      | Recv.value value rest =>
        AnyMatchLoop predicate fuel rest (if predicate value then true else output)
      | Recv.closed => AnyMatchLoop predicate fuel ch output
      | Recv.blocked => some Outcome.blocked
    else some (Outcome.returned (output, ch))

/-- `func AnyMatch`. -/
def AnyMatch {T : Type} (fuel : Nat) (inputStream : Stream T) (predicate : T → Bool) :
    Option (Outcome Bool) :=
  let output := false
  (AnyMatchLoop predicate fuel inputStream.elements output).map (Outcome.map fun r => r.1)

/-- The loop of `AllMatch`, `for output { select { ... } }`; the `break`
leaves the `select` only. -/
def AllMatchLoop {T : Type} (predicate : T → Bool) :
    Nat → Chan T → Bool → Option (Outcome (Bool × Chan T))
  | 0, _, _ => none
  | fuel + 1, ch, output =>
    if output then
      match ch.recv with
      | Recv.value value rest =>
        AllMatchLoop predicate fuel rest (if !predicate value then false else output)
      | Recv.closed => AllMatchLoop predicate fuel ch output
      | Recv.blocked => some Outcome.blocked
    else some (Outcome.returned (output, ch))

/-- `func AllMatch`. -/
def AllMatch {T : Type} (fuel : Nat) (inputStream : Stream T) (predicate : T → Bool) :
    Option (Outcome Bool) :=
  let output := true
  (AllMatchLoop predicate fuel inputStream.elements output).map (Outcome.map fun r => r.1)

/-- `func ForEach`: the executor returns nothing, it acts on a state `σ` of
the caller; it runs in the calling goroutine. -/
def ForEach {σ T : Type} (inputStream : Stream T) (executor : T → σ → σ) (world : σ) :
    Outcome σ :=
  match forRange inputStream.elements (fun world element => executor element world) world with
  | (world, true) => Outcome.returned world
  | (_, false) => Outcome.blocked

/-! ### Pipelines whose stages run caller code with side effects

`Peek` runs its executor inside the goroutine of its stage.  To follow which
invocations happen, a channel carries with each value the side effects (on a
state `σ` of the caller) that its producing side performs between the
previous send and the send of that value: the goroutine that sends it,
together with the stages upstream of it, whose values that goroutine received
in the meantime.  A receiver that takes a value has these effects behind it;
a stage that receives a value and sends nothing passes the effects on with its
next send, or with its close. -/
namespace effect

/-- A channel with the side effects of its producing side: `queue` holds each
value with the effects performed since the previous send, `final` the effects
performed after the last send, up to the `close` (or up to the receive on
which the producing side parks). -/
structure Chan (σ T : Type) where
  queue : List ((σ → σ) × T)
  final : σ → σ
  closed : Bool

/-- `make(chan T)`. -/
def Chan.make {σ T : Type} : Chan σ T := ⟨[], id, false⟩

/-- `ch <- v` by a goroutine that has `work` behind it since its last send. -/
def Chan.send {σ T : Type} (ch : Chan σ T) (work : σ → σ) (v : T) : Chan σ T :=
  { ch with queue := ch.queue ++ [(work, v)] }

/-- The side effects carried by a queue of values, in order. -/
def runQueue {σ T : Type} (queue : List ((σ → σ) × T)) (world : σ) : σ :=
  queue.foldl (fun world step => step.1 world) world

/-- All the side effects of the producing side of a channel. -/
def Chan.run {σ T : Type} (ch : Chan σ T) (world : σ) : σ :=
  ch.final (runQueue ch.queue world)

/-- `type Stream[T any] struct { elements chan T }`. -/
structure Stream (σ T : Type) where
  elements : Chan σ T

/-- The values of a stream without the side effects. -/
def erase {σ T : Type} (s : Stream σ T) : stream.Stream T :=
  ⟨⟨s.elements.queue.map Prod.snd, s.elements.closed⟩⟩

/-- One receive of a `range` loop in the goroutine of a stage: the effects
carried by the received value are behind the goroutine when the body runs. -/
def receiveStep {σ T τ : Type} (body : τ × (σ → σ) → T → τ × (σ → σ)) (st : τ × (σ → σ))
    (step : (σ → σ) × T) : τ × (σ → σ) :=
  body (st.1, step.1 ∘ st.2) step.2

/-- `for element := range ch { ... }` in the goroutine of a stage.  The loop
state comes with `work`, the side effects behind the goroutine since its last
send; a received value adds the effects it carries, and when the loop stops
the effects after the last value are added. -/
def forRange {σ T τ : Type} (ch : Chan σ T) (body : τ × (σ → σ) → T → τ × (σ → σ))
    (init : τ × (σ → σ)) : (τ × (σ → σ)) × Bool :=
  let r := forRangeQueue (receiveStep body) ch.closed ch.queue init
  ((r.1.1, ch.final ∘ r.1.2), r.2)

/-- `go func() { defer close(out); run }()`: the effects behind the goroutine
when it stops are those after its last send; the deferred `close` runs when
the body ran to its end. -/
def goProducer {σ T : Type} (run : (Chan σ T × (σ → σ)) × Bool) : Chan σ T :=
  { run.1.1 with final := run.1.2, closed := run.2 }

/-- `func Of`: the goroutine only sends. -/
def Of {σ T : Type} (elements : List T) : Stream σ T :=
  let stream : Chan σ T := Chan.make
  ⟨goProducer ((elements.foldl (fun ch element => ch.send id element) stream, id), true)⟩

/-- The loop body of `Peek`: `executor(element)`, then
`outputChannel <- element`, after which nothing is behind the goroutine. -/
def peekBody {σ T : Type} (executor : T → σ → σ) (st : Chan σ T × (σ → σ)) (element : T) :
    Chan σ T × (σ → σ) :=
  let work := executor element ∘ st.2
  (st.1.send work element, id)

/-- `func Peek`. -/
def Peek {σ T : Type} (inputStream : Stream σ T) (executor : T → σ → σ) : Stream σ T :=
  let outputChannel : Chan σ T := Chan.make
  ⟨goProducer (forRange inputStream.elements (peekBody executor) (outputChannel, id))⟩

/-- The loop body of `Limit`: `if index < limit { outputChannel <- element }`,
then `index++`; an element past the limit has been received and is not sent,
so what it carries stays behind the goroutine. -/
def limitBody {σ T : Type} (limit : Nat) (st : (Chan σ T × Nat) × (σ → σ)) (element : T) :
    (Chan σ T × Nat) × (σ → σ) :=
  if st.1.2 < limit then ((st.1.1.send st.2 element, (st.1.2 + 1) % uintSize), id)
  else ((st.1.1, (st.1.2 + 1) % uintSize), st.2)

/-- `func Limit`. -/
def Limit {σ T : Type} (inputStream : Stream σ T) (limit : Nat) : Stream σ T :=
  let outputChannel : Chan σ T := Chan.make
  let index : Nat := 0
  let run := forRange inputStream.elements (limitBody limit) ((outputChannel, index), id)
  ⟨goProducer ((run.1.1.1, run.1.2), run.2)⟩

/-- `func ToSlice`, with the state of the caller before the call: the slice,
and the state once the pipeline has been drained. -/
def ToSlice {σ T : Type} (inputStream : Stream σ T) (world : σ) : Outcome (List T × σ) :=
  let output : List T := []
  match forRangeQueue (fun (st : List T × σ) step => (st.1 ++ [step.2], step.1 st.2))
      inputStream.elements.closed inputStream.elements.queue (output, world) with
  | (st, true) => Outcome.returned (st.1, inputStream.elements.final st.2)
  | (_, false) => Outcome.blocked

end effect

end stream

open stream

/-! ## Channel and loop lemmas -/

theorem forRangeQueue_eq_foldl {T σ : Type} (body : σ → T → σ) (closed : Bool) (l : List T)
    (state : σ) : forRangeQueue body closed l state = (l.foldl body state, closed) := by
  induction l generalizing state with
  | nil => rfl
  | cons element rest ih => simp [forRangeQueue, ih]

/-- The loop `forRange` is the repeated receive of the `range` clause: a
received value runs the body and loops, `ok == false` leaves the loop, and a
receive that never completes parks it. -/
theorem forRange_recv {T σ : Type} (ch : Chan T) (body : σ → T → σ) (state : σ) :
    forRange ch body state =
      match ch.recv with
      | Recv.value v rest => forRange rest body (body state v)
      | Recv.closed => (state, true)
      | Recv.blocked => (state, false) := by
  obtain ⟨queue, closed⟩ := ch
  cases queue with
  | nil => cases closed <;> rfl
  | cons v rest => rfl

theorem foldl_send {T : Type} (l : List T) (ch : Chan T) :
    l.foldl (fun ch element => ch.send element) ch = ⟨ch.queue ++ l, ch.closed⟩ := by
  induction l generalizing ch with
  | nil => simp
  | cons element rest ih =>
    rw [List.foldl_cons, ih]
    simp [Chan.send]

/-- The channel of `Of(S...)` delivers `S` and is then closed. -/
theorem Of_elements {T : Type} (S : List T) : (Of S).elements = ⟨S, true⟩ := by
  simp [Of, goProducer, foldl_send, Chan.make, Chan.close]

/-- The channel of `Empty()` is the `nil` channel: it delivers nothing and is
never closed. -/
theorem Empty_elements {T : Type} : (Empty : Stream T).elements = ⟨[], false⟩ := rfl

theorem foldl_filter_send {T : Type} (p : T → Bool) (l : List T) (ch : Chan T) :
    l.foldl (fun out element => if p element then out.send element else out) ch
      = ⟨ch.queue ++ l.filter p, ch.closed⟩ := by
  induction l generalizing ch with
  | nil => simp
  | cons element rest ih =>
    rw [List.foldl_cons, ih]
    by_cases h : p element = true <;> simp [Chan.send, h]

theorem foldl_map_send {I O : Type} (f : I → O) (l : List I) (ch : Chan O) :
    l.foldl (fun out element => out.send (f element)) ch
      = ⟨ch.queue ++ l.map f, ch.closed⟩ := by
  induction l generalizing ch with
  | nil => simp
  | cons element rest ih =>
    rw [List.foldl_cons, ih]
    simp [Chan.send]

theorem foldl_append_singleton {T : Type} (l acc : List T) :
    l.foldl (fun output element => output ++ [element]) acc = acc ++ l := by
  induction l generalizing acc with
  | nil => simp
  | cons element rest ih => simp [ih]

/-- Draining a channel that delivers `l` and is then closed returns `l`. -/
theorem ToSlice_closed {T : Type} (l : List T) :
    ToSlice (⟨⟨l, true⟩⟩ : Stream T) = Outcome.returned l := by
  simp [ToSlice, forRange, forRangeQueue_eq_foldl, foldl_append_singleton]

/-- A stream whose channel is never closed cannot be drained. -/
theorem ToSlice_open {T : Type} (l : List T) :
    ToSlice (⟨⟨l, false⟩⟩ : Stream T) = Outcome.blocked := by
  simp [ToSlice, forRange, forRangeQueue_eq_foldl]

theorem Filter_elements {T : Type} (s : Stream T) (p : T → Bool) :
    (Filter s p).elements = ⟨s.elements.queue.filter p, s.elements.closed⟩ := by
  cases hc : s.elements.closed <;>
    simp [stream.Filter, goProducer, forRange, forRangeQueue_eq_foldl, foldl_filter_send, Chan.make,
      Chan.close, hc]

theorem Map_elements {I O : Type} (s : Stream I) (f : I → O) :
    (Map s f).elements = ⟨s.elements.queue.map f, s.elements.closed⟩ := by
  cases hc : s.elements.closed <;>
    simp [stream.Map, goProducer, forRange, forRangeQueue_eq_foldl, foldl_map_send, Chan.make,
      Chan.close, hc]

theorem foldl_skip {T : Type} (k : Nat) (l : List T) (out : Chan T) (i : Nat)
    (h : i + l.length < uintSize) :
    l.foldl (fun (st : Chan T × Nat) element =>
        (if st.2 ≥ k then st.1.send element else st.1, (st.2 + 1) % uintSize)) (out, i)
      = (⟨out.queue ++ l.drop (k - i), out.closed⟩, i + l.length) := by
  induction l generalizing out i with
  | nil => simp
  | cons element rest ih =>
    have hlen : i + 1 + rest.length < uintSize := by
      simp only [List.length_cons] at h
      omega
    have hmod : (i + 1) % uintSize = i + 1 := Nat.mod_eq_of_lt (by omega)
    rw [List.foldl_cons]
    simp only [hmod]
    rw [ih _ _ hlen]
    by_cases hk : i ≥ k
    · have h0 : k - i = 0 := by omega
      have h1 : k - (i + 1) = 0 := by omega
      simp [hk, h0, h1, Chan.send]
      omega
    · have h1 : k - i = (k - (i + 1)) + 1 := by omega
      rw [h1, List.drop_succ_cons]
      simp [hk]
      omega

theorem foldl_limit {T : Type} (m : Nat) (l : List T) (out : Chan T) (i : Nat)
    (h : i + l.length < uintSize) :
    l.foldl (fun (st : Chan T × Nat) element =>
        (if st.2 < m then st.1.send element else st.1, (st.2 + 1) % uintSize)) (out, i)
      = (⟨out.queue ++ l.take (m - i), out.closed⟩, i + l.length) := by
  induction l generalizing out i with
  | nil => simp
  | cons element rest ih =>
    have hlen : i + 1 + rest.length < uintSize := by
      simp only [List.length_cons] at h
      omega
    have hmod : (i + 1) % uintSize = i + 1 := Nat.mod_eq_of_lt (by omega)
    rw [List.foldl_cons]
    simp only [hmod]
    rw [ih _ _ hlen]
    by_cases hk : i < m
    · have h1 : m - i = (m - (i + 1)) + 1 := by omega
      rw [h1, List.take_succ_cons]
      simp [hk, Chan.send]
      omega
    · have h0 : m - i = 0 := by omega
      have h1 : m - (i + 1) = 0 := by omega
      simp [hk, h0, h1]
      omega

theorem Skip_elements {T : Type} (s : Stream T) (k : Nat)
    (h : s.elements.queue.length < uintSize) :
    (Skip s k).elements = ⟨s.elements.queue.drop k, s.elements.closed⟩ := by
  have h0 : 0 + s.elements.queue.length < uintSize := by omega
  cases hc : s.elements.closed <;>
    simp [Skip, goProducer, forRange, forRangeQueue_eq_foldl, foldl_skip k _ _ 0 h0, Chan.make,
      Chan.close, hc]

theorem Limit_elements {T : Type} (s : Stream T) (m : Nat)
    (h : s.elements.queue.length < uintSize) :
    (Limit s m).elements = ⟨s.elements.queue.take m, s.elements.closed⟩ := by
  have h0 : 0 + s.elements.queue.length < uintSize := by omega
  cases hc : s.elements.closed <;>
    simp [Limit, goProducer, forRange, forRangeQueue_eq_foldl, foldl_limit m _ _ 0 h0, Chan.make,
      Chan.close, hc]

theorem flatMapBody_closed {I O : Type} (f : I → Stream O) (out : Chan O) (element : I)
    (h : (f element).elements.closed = true) :
    flatMapBody f (out, true) element
      = (⟨out.queue ++ (f element).elements.queue, out.closed⟩, true) := by
  simp [flatMapBody, forRange, forRangeQueue_eq_foldl, foldl_send, h]

theorem foldl_flatMapBody {I O : Type} (f : I → Stream O) (l : List I) (out : Chan O)
    (hf : ∀ s ∈ l, (f s).elements.closed = true) :
    l.foldl (flatMapBody f) (out, true)
      = (⟨out.queue ++ l.flatMap (fun s => (f s).elements.queue), out.closed⟩, true) := by
  induction l generalizing out with
  | nil => simp
  | cons element rest ih =>
    have hrest : ∀ s ∈ rest, (f s).elements.closed = true :=
      fun s hs => hf s (List.mem_cons_of_mem _ hs)
    rw [List.foldl_cons, flatMapBody_closed f out element (hf element (List.mem_cons_self _ _)),
      ih _ hrest]
    simp

theorem Stream_eta {T : Type} (s : Stream T) : s = ⟨s.elements⟩ := by
  cases s
  rfl

/-! ## Loops of the short-circuiting terminals -/

theorem recv_cons {T : Type} (v : T) (rest : List T) (c : Bool) :
    Chan.recv ⟨v :: rest, c⟩ = Recv.value v ⟨rest, c⟩ := rfl

theorem recv_nil_closed {T : Type} : Chan.recv (⟨[], true⟩ : Chan T) = Recv.closed := rfl

theorem recv_nil_open {T : Type} : Chan.recv (⟨[], false⟩ : Chan T) = Recv.blocked := rfl

/-- The first element of a list that satisfies a predicate splits the list. -/
theorem exists_first_split {T : Type} (p : T → Bool) (S : List T) (h : ∃ x ∈ S, p x = true) :
    ∃ pre x rest, S = pre ++ x :: rest ∧ (∀ z ∈ pre, p z = false) ∧ p x = true := by
  induction S with
  | nil => simp at h
  | cons a tail ih =>
    by_cases ha : p a = true
    · exact ⟨[], a, tail, rfl, by simp, ha⟩
    · have htail : ∃ x ∈ tail, p x = true := by
        obtain ⟨x, hx, hpx⟩ := h
        rcases List.mem_cons.mp hx with rfl | hmem
        · exact absurd hpx ha
        · exact ⟨x, hmem, hpx⟩
      obtain ⟨pre, x, rest, hS, hpre, hx⟩ := ih htail
      refine ⟨a :: pre, x, rest, by simp [hS], ?_, hx⟩
      intro z hz
      rcases List.mem_cons.mp hz with rfl | hmem
      · simpa using ha
      · exact hpre z hmem

/-- On a closed channel none of whose values satisfies the predicate, the loop
of `AnyMatch` never leaves: it runs out of any amount of fuel. -/
theorem AnyMatchLoop_spin {T : Type} (p : T → Bool) (fuel : Nat) (l : List T)
    (h : ∀ x ∈ l, p x = false) : AnyMatchLoop p fuel ⟨l, true⟩ false = none := by
  induction fuel generalizing l with
  | zero => rfl
  | succ n ih =>
    cases l with
    | nil => simpa [AnyMatchLoop, recv_nil_closed] using ih [] h
    | cons v rest =>
      have hv : p v = false := h v (List.mem_cons_self _ _)
      simpa [AnyMatchLoop, recv_cons, hv] using ih rest fun x hx => h x (List.mem_cons_of_mem _ hx)

/-- The loop of `AnyMatch` is left right after the first value that satisfies
the predicate has been received; what follows it stays on the channel. -/
theorem AnyMatchLoop_found {T : Type} (p : T → Bool) (pre : List T) (x : T) (rest : List T)
    (c : Bool) (hpre : ∀ z ∈ pre, p z = false) (hx : p x = true) (fuel : Nat)
    (hfuel : pre.length + 2 ≤ fuel) :
    AnyMatchLoop p fuel ⟨pre ++ x :: rest, c⟩ false = some (Outcome.returned (true, ⟨rest, c⟩)) := by
  induction pre generalizing fuel with
  | nil =>
    obtain ⟨n, rfl⟩ : ∃ n, fuel = n + 2 := ⟨fuel - 2, by simp at hfuel; omega⟩
    simp [AnyMatchLoop, recv_cons, hx]
  | cons v tail ih =>
    obtain ⟨n, rfl⟩ : ∃ n, fuel = n + 1 := ⟨fuel - 1, by simp at hfuel; omega⟩
    have hv : p v = false := hpre v (List.mem_cons_self _ _)
    have := ih (fun z hz => hpre z (List.mem_cons_of_mem _ hz)) n (by simp at hfuel; omega)
    simpa [AnyMatchLoop, recv_cons, hv] using this

/-- On a closed channel all of whose values satisfy the predicate, the loop of
`AllMatch` never leaves. -/
theorem AllMatchLoop_spin {T : Type} (p : T → Bool) (fuel : Nat) (l : List T)
    (h : ∀ x ∈ l, p x = true) : AllMatchLoop p fuel ⟨l, true⟩ true = none := by
  induction fuel generalizing l with
  | zero => rfl
  | succ n ih =>
    cases l with
    | nil => simpa [AllMatchLoop, recv_nil_closed] using ih [] h
    | cons v rest =>
      have hv : p v = true := h v (List.mem_cons_self _ _)
      simpa [AllMatchLoop, recv_cons, hv] using ih rest fun x hx => h x (List.mem_cons_of_mem _ hx)

/-- The loop of `AllMatch` is left right after the first value that fails the
predicate has been received. -/
theorem AllMatchLoop_found {T : Type} (p : T → Bool) (pre : List T) (x : T) (rest : List T)
    (c : Bool) (hpre : ∀ z ∈ pre, p z = true) (hx : p x = false) (fuel : Nat)
    (hfuel : pre.length + 2 ≤ fuel) :
    AllMatchLoop p fuel ⟨pre ++ x :: rest, c⟩ true = some (Outcome.returned (false, ⟨rest, c⟩)) := by
  induction pre generalizing fuel with
  | nil =>
    obtain ⟨n, rfl⟩ : ∃ n, fuel = n + 2 := ⟨fuel - 2, by simp at hfuel; omega⟩
    simp [AllMatchLoop, recv_cons, hx]
  | cons v tail ih =>
    obtain ⟨n, rfl⟩ : ∃ n, fuel = n + 1 := ⟨fuel - 1, by simp at hfuel; omega⟩
    have hv : p v = true := hpre v (List.mem_cons_self _ _)
    have := ih (fun z hz => hpre z (List.mem_cons_of_mem _ hz)) n (by simp at hfuel; omega)
    simpa [AllMatchLoop, recv_cons, hv] using this

/-- On a closed channel on which every value that satisfies the predicate is
`nil`, the loop of `FindFirst` never leaves. -/
theorem FindFirstLoop_spin {T : Type} [Nillable T] (p : T → Bool) (fuel : Nat) (l : List T)
    (output : T) (hout : Nillable.isNil output = true)
    (h : ∀ x ∈ l, p x = true → Nillable.isNil x = true) :
    FindFirstLoop p fuel ⟨l, true⟩ output = none := by
  induction fuel generalizing l output with
  | zero => rfl
  | succ n ih =>
    cases l with
    | nil => simpa [FindFirstLoop, recv_nil_closed, hout] using ih [] output hout h
    | cons v rest =>
      have hrest : ∀ x ∈ rest, p x = true → Nillable.isNil x = true :=
        fun x hx => h x (List.mem_cons_of_mem _ hx)
      by_cases hv : p v = true
      · have hnil : Nillable.isNil v = true := h v (List.mem_cons_self _ _) hv
        simpa [FindFirstLoop, recv_cons, hout, hv] using ih rest v hnil hrest
      · simpa [FindFirstLoop, recv_cons, hout, hv] using ih rest output hout hrest

/-- The loop of `FindFirst` is left right after the first non-nil value that
satisfies the predicate has been received. -/
theorem FindFirstLoop_found {T : Type} [Nillable T] (p : T → Bool) (pre : List T) (x : T)
    (rest : List T) (c : Bool) (output : T) (hout : Nillable.isNil output = true)
    (hpre : ∀ z ∈ pre, p z = true → Nillable.isNil z = true) (hx : p x = true)
    (hnil : Nillable.isNil x = false) (fuel : Nat) (hfuel : pre.length + 2 ≤ fuel) :
    FindFirstLoop p fuel ⟨pre ++ x :: rest, c⟩ output
      = some (Outcome.returned (x, ⟨rest, c⟩)) := by
  induction pre generalizing fuel output with
  | nil =>
    obtain ⟨n, rfl⟩ : ∃ n, fuel = n + 2 := ⟨fuel - 2, by simp at hfuel; omega⟩
    simp [FindFirstLoop, recv_cons, hx, hout, hnil]
  | cons v tail ih =>
    obtain ⟨n, rfl⟩ : ∃ n, fuel = n + 1 := ⟨fuel - 1, by simp at hfuel; omega⟩
    have htail : ∀ z ∈ tail, p z = true → Nillable.isNil z = true :=
      fun z hz => hpre z (List.mem_cons_of_mem _ hz)
    have hfuel2 : tail.length + 2 ≤ n := by simp at hfuel; omega
    by_cases hv : p v = true
    · have hvnil : Nillable.isNil v = true := hpre v (List.mem_cons_self _ _) hv
      simpa [FindFirstLoop, recv_cons, hout, hv] using ih v hvnil htail n hfuel2
    · simpa [FindFirstLoop, recv_cons, hout, hv] using ih output hout htail n hfuel2

theorem isNil_zero {T : Type} [Nillable T] : Nillable.isNil (ZeroValue.zero : T) = true :=
  (Nillable.isNil_iff _).mpr rfl

/-! ## Transforms -/

/-- C1: `Filter(Of(S...), p).ToSlice()` returns exactly the elements of `S`
that satisfy `p`, in their order in `S`; every returned element satisfies `p`
and the result is a subsequence of `S`. -/
theorem C1_filter_toSlice {T : Type} (S : List T) (p : T → Bool) :
    ∃ l, ToSlice (Filter (Of S) p) = Outcome.returned l ∧ l = S.filter p ∧
      (∀ x ∈ l, p x = true) ∧ l.Sublist S := by
  refine ⟨S.filter p, ?_, rfl, ?_, List.filter_sublist S⟩
  · rw [show Filter (Of S) p = ⟨⟨S.filter p, true⟩⟩ from by
      cases h : Filter (Of S) p
      simpa [Filter_elements, Of_elements] using congrArg stream.Stream.elements h.symm]
    exact ToSlice_closed _
  · intro x hx
    exact (List.mem_filter.mp hx).2

/-- C2: `Map(Of(S...), f).ToSlice()` returns the list of `f` applied to each
element of `S` in order: same length, and the `i`-th result is `f` of the
`i`-th element. -/
theorem C2_map_toSlice {I O : Type} (S : List I) (f : I → O) :
    ∃ l, ToSlice (Map (Of S) f) = Outcome.returned l ∧ l = S.map f ∧
      l.length = S.length ∧ ∀ i : Nat, l[i]? = (S[i]?).map f := by
  refine ⟨S.map f, ?_, rfl, List.length_map S f, fun i => by simp⟩
  rw [show Map (Of S) f = ⟨⟨S.map f, true⟩⟩ from by
    cases h : Map (Of S) f
    simpa [Map_elements, Of_elements] using congrArg stream.Stream.elements h.symm]
  exact ToSlice_closed _

/-- C3: for a list that fits a Go slice (fewer than `2^64` elements),
`Limit(Skip(Of(S...), k), m).ToSlice()` returns `S[k : k+m]` clamped to the
available length (drop `k`, then take `m`); `Limit` alone returns the first
`min(m, len(S))` elements in order. -/
theorem C3_skip_limit_toSlice {T : Type} (S : List T) (k m : Nat) (hS : S.length < uintSize) :
    ToSlice (Limit (Skip (Of S) k) m) = Outcome.returned ((S.drop k).take m) ∧
      ToSlice (Limit (Of S) m) = Outcome.returned (S.take m) ∧
      (S.take m).length = min m S.length := by
  have hskip : (Skip (Of S) k).elements = ⟨S.drop k, true⟩ := by
    rw [Skip_elements _ _ (by simpa [Of_elements] using hS)]
    simp [Of_elements]
  have hlen : (S.drop k).length < uintSize := by
    have := List.length_drop k S
    omega
  refine ⟨?_, ?_, List.length_take m S⟩
  · rw [Stream_eta (Limit (Skip (Of S) k) m),
      Limit_elements _ _ (by simpa [hskip] using hlen)]
    simp only [hskip]
    exact ToSlice_closed _
  · rw [Stream_eta (Limit (Of S) m), Limit_elements _ _ (by simpa [Of_elements] using hS)]
    simp only [Of_elements]
    exact ToSlice_closed _

/-- C3 at the scenario of the specification:
`Of(1,2,3,4,5).Skip(2).Limit(2).ToSlice() == [3,4]`. -/
theorem C3_skip_limit_toSlice_witness :
    ToSlice (Limit (Skip (Of [1, 2, 3, 4, 5]) 2) 2) = Outcome.returned [3, 4] ∧
      ToSlice (Limit (Of [1, 2, 3, 4, 5]) 2) = Outcome.returned [1, 2] ∧
      ([1, 2, 3, 4, 5].take 2).length = min 2 [1, 2, 3, 4, 5].length :=
  C3_skip_limit_toSlice [1, 2, 3, 4, 5] 2 2 (by simp [uintSize])

/-- When the channel of every sub-stream `f(s)` is closed after its elements,
`FlatMap(Of(S...), f).ToSlice()` returns the concatenation, in the order of
`S`, of the element lists of the sub-streams: each sub-stream is forwarded
whole before the next upstream element is taken. -/
theorem FlatMap_toSlice_closed {I O : Type} (S : List I) (f : I → Stream O)
    (hf : ∀ s ∈ S, (f s).elements.closed = true) :
    ToSlice (FlatMap (Of S) f) =
      Outcome.returned (S.flatMap fun s => (f s).elements.queue) := by
  rw [Stream_eta (FlatMap (Of S) f)]
  have : (FlatMap (Of S) f).elements = ⟨S.flatMap fun s => (f s).elements.queue, true⟩ := by
    have hloop := foldl_flatMapBody f S Chan.make hf
    simp only [Chan.make, List.nil_append] at hloop
    simp [FlatMap, goProducer, forRange, forRangeQueue_eq_foldl, Of_elements, hloop, Chan.make,
      Chan.close]
  rw [this]
  exact ToSlice_closed _

/-- The scenario of the specification:
`Of("a","b").FlatMap(x -> Of(x,x)).ToSlice() == ["a","a","b","b"]`. -/
theorem scenario_flatMap :
    ToSlice (FlatMap (Of ["a", "b"]) fun x => Of [x, x]) =
      Outcome.returned (["a", "b"].flatMap fun s => (Of [s, s]).elements.queue) :=
  FlatMap_toSlice_closed ["a", "b"] (fun x => Of [x, x]) (by simp [Of_elements])

/-- The goroutine of `FlatMap` is still running after the elements `l` exactly
when it was running before and the channel of every sub-stream of `l` is
closed; it never closes its output channel inside the loop. -/
theorem foldl_flatMapBody_running {I O : Type} (f : I → Stream O) (l : List I)
    (st : Chan O × Bool) :
    (l.foldl (flatMapBody f) st).2 = (st.2 && l.all fun s => (f s).elements.closed) ∧
      (l.foldl (flatMapBody f) st).1.closed = st.1.closed := by
  induction l generalizing st with
  | nil => simp
  | cons element rest ih =>
    obtain ⟨out, running⟩ := st
    rw [List.foldl_cons]
    obtain ⟨h1, h2⟩ := ih (flatMapBody f (out, running) element)
    rw [h1, h2]
    cases running
    · simp [flatMapBody]
    · simp [flatMapBody, forRange, forRangeQueue_eq_foldl, foldl_send]

/-- C4 fails on the code when `f` returns `stream.Empty()`, the empty stream
of the library: `FlatMap(Of(x), _ -> Empty()).ToSlice()` never returns, where
the claim gives the empty concatenation; with the sibling `Of()` as the
sub-stream it returns the empty slice.  In general the call returns, and then
returns the concatenation in the order of `S` of the element lists of the
sub-streams, exactly when the channel of every sub-stream is closed after its
elements; otherwise the goroutine of `FlatMap` parks inside a sub-stream and
the call never returns. -/
theorem C4_flatMap_unclosed_substream_blocks {I O : Type} (S : List I) (f : I → Stream O) :
    ToSlice (FlatMap (Of S) f) =
        (if S.all (fun s => (f s).elements.closed) = true then
          Outcome.returned (S.flatMap fun s => (f s).elements.queue)
        else Outcome.blocked) ∧
      ∀ x : I,
        ToSlice (FlatMap (Of [x]) fun _ => (Empty : Stream O)) = Outcome.blocked ∧
        ([x].flatMap fun _ => (Empty : Stream O).elements.queue) = [] ∧
        ToSlice (FlatMap (Of [x]) fun _ => (Of [] : Stream O)) = Outcome.returned [] := by
  have general : ∀ (S : List I) (f : I → Stream O), ToSlice (FlatMap (Of S) f) =
      (if S.all (fun s => (f s).elements.closed) = true then
        Outcome.returned (S.flatMap fun s => (f s).elements.queue)
      else Outcome.blocked) := by
    intro S f
    by_cases hall : S.all (fun s => (f s).elements.closed) = true
    · rw [if_pos hall]
      exact FlatMap_toSlice_closed S f (by simpa using hall)
    · rw [if_neg hall]
      obtain ⟨hrun, hclosed⟩ := foldl_flatMapBody_running f S (Chan.make, true)
      have hfalse : (S.foldl (flatMapBody f) (Chan.make, true)).2 = false := by
        rw [hrun]
        simpa using hall
      have helems : (FlatMap (Of S) f).elements
          = ⟨(S.foldl (flatMapBody f) (Chan.make, true)).1.queue, false⟩ := by
        have hc : (S.foldl (flatMapBody f) (Chan.make, true)).1.closed = false := hclosed
        simp only [FlatMap, goProducer, forRange, forRangeQueue_eq_foldl, Of_elements, hfalse,
          Bool.false_and, Bool.false_eq_true, if_false]
        rw [← hc]
      rw [Stream_eta (FlatMap (Of S) f), helems]
      exact ToSlice_open _
  refine ⟨general S f, fun x => ⟨?_, rfl, ?_⟩⟩
  · rw [general]
    simp [Empty_elements]
  · rw [general]
    simp [Of_elements]

/-! ## Short-circuiting terminals -/

/-- C5, as stated, fails on `Of(nil, 5)` with the always-true predicate: the
first element that satisfies the predicate is `nil`, and `FindFirst` returns an
Optional holding `5`; no amount of fuel makes it return an Optional holding
the first element. -/
theorem C5_findFirst_counterexample :
    ([none, some 5] : List (Option Nat)).find? (fun _ => true) = some none ∧
      FindFirst 3 (Of [none, some 5]) (fun _ => true)
        = some (Outcome.returned (optional.Of (some 5))) ∧
      ∀ fuel, FindFirst fuel (Of [none, some 5]) (fun _ => true)
        ≠ some (Outcome.returned (optional.Of none)) := by
  refine ⟨rfl, by decide, ?_⟩
  intro fuel
  match fuel with
  | 0 => decide
  | 1 => decide
  | 2 => decide
  | n + 3 =>
    have h := FindFirstLoop_found (fun _ : Option Nat => true) [none] (some 5) [] true none rfl
      (by simp [Nillable.isNil]) rfl rfl (n + 3) (by simp)
    simp only [List.singleton_append] at h
    simp [FindFirst, Of_elements, ZeroValue.zero, h, Outcome.map, optional.Of]

/-- C5, amended: when some non-nil element of `S` satisfies `p`,
`FindFirst(Of(S...), p)` returns (with any fuel above `len(S)`) an Optional
that holds the first non-nil element of `S` satisfying `p`, and that Optional
is present. -/
theorem C5_findFirst_nonNil {T : Type} [Nillable T] (S : List T) (p : T → Bool) (x : T)
    (hx : S.find? (fun v => p v && !Nillable.isNil v) = some x) (fuel : Nat)
    (hfuel : S.length < fuel) :
    FindFirst fuel (Of S) p = some (Outcome.returned (optional.Of x)) ∧
      optional.IsPresent (optional.Of x) = true := by
  obtain ⟨hpx, pre, rest, hS, hpre⟩ := List.find?_eq_some.mp hx
  simp only [Bool.and_eq_true, Bool.not_eq_true'] at hpx
  have hpre2 : ∀ z ∈ pre, p z = true → Nillable.isNil z = true := by
    intro z hz hpz
    have := hpre z hz
    simpa [hpz] using this
  have hlen : pre.length + 2 ≤ fuel := by
    have : S.length = pre.length + (rest.length + 1) := by simp [hS]
    omega
  have h := FindFirstLoop_found p pre x rest true ZeroValue.zero isNil_zero hpre2 hpx.1 hpx.2
    fuel hlen
  refine ⟨?_, by simp [optional.IsPresent, optional.Of, hpx.2]⟩
  simp [FindFirst, Of_elements, hS, h, Outcome.map]

/-- C5 amended, at the scenario of the specification (values boxed in an
interface): `Of(1,2,3).FindFirst(x>1) == Optional.Of(2)`. -/
theorem C5_findFirst_nonNil_witness :
    FindFirst 4 (Of [some 1, some 2, some 3]) (fun x => decide (1 < x.getD 0))
        = some (Outcome.returned (optional.Of (some 2))) ∧
      optional.IsPresent (optional.Of (some 2)) = true :=
  C5_findFirst_nonNil [some 1, some 2, some 3] (fun x => decide (1 < x.getD 0)) (some 2)
    (by decide) 4 (by decide)

/-- C6 fails on the code: over `Of(S...)` where no element of `S` satisfies
`p` (in particular over `Of()`), none of `FindFirst(p)`, `AnyMatch(p)` and
`AllMatch(not p)` ever returns; the closed channel is read again on every turn
of the loop, whatever the fuel. -/
theorem C6_terminals_never_return {T : Type} [Nillable T] (S : List T) (p : T → Bool)
    (h : ∀ x ∈ S, p x = false) (fuel : Nat) :
    FindFirst fuel (Of S) p = none ∧ AnyMatch fuel (Of S) p = none ∧
      AllMatch fuel (Of S) (fun x => !p x) = none := by
  refine ⟨?_, ?_, ?_⟩
  · simp [FindFirst, Of_elements,
      FindFirstLoop_spin p fuel S ZeroValue.zero isNil_zero (fun x hx hpx => by simp [h x hx] at hpx)]
  · simp [AnyMatch, Of_elements, AnyMatchLoop_spin p fuel S h]
  · simp [AllMatch, Of_elements,
      AllMatchLoop_spin (fun x => !p x) fuel S (fun x hx => by simp [h x hx])]

/-- C6 at `Of()` and at `Of(1, 2)` with a predicate that holds nowhere. -/
theorem C6_terminals_never_return_witness :
    (FindFirst 1000 (Of ([] : List (Option Nat))) (fun _ => false) = none ∧
      AnyMatch 1000 (Of ([] : List (Option Nat))) (fun _ => false) = none ∧
      AllMatch 1000 (Of ([] : List (Option Nat))) (fun x => !(fun _ => false) x) = none) ∧
    (FindFirst 1000 (Of [some 1, some 2]) (fun _ => false) = none ∧
      AnyMatch 1000 (Of [some 1, some 2]) (fun _ => false) = none ∧
      AllMatch 1000 (Of [some 1, some 2]) (fun x => !(fun _ => false) x) = none) :=
  ⟨C6_terminals_never_return [] (fun _ => false) (by simp) 1000,
    C6_terminals_never_return [some 1, some 2] (fun _ => false) (by simp) 1000⟩

/-- C7 fails on the code: over `Of()` neither `AllMatch(p)` nor `AnyMatch(p)`
returns, whatever the fuel, and over `Empty()` both park forever on the
receive from the `nil` channel. -/
theorem C7_match_on_empty_source {T : Type} (p : T → Bool) (fuel : Nat) :
    AllMatch fuel (Of ([] : List T)) p = none ∧ AnyMatch fuel (Of ([] : List T)) p = none ∧
      AllMatch (fuel + 1) (Empty : Stream T) p = some Outcome.blocked ∧
      AnyMatch (fuel + 1) (Empty : Stream T) p = some Outcome.blocked := by
  refine ⟨?_, ?_, ?_, ?_⟩
  · simp [AllMatch, Of_elements, AllMatchLoop_spin p fuel [] (by simp)]
  · simp [AnyMatch, Of_elements, AnyMatchLoop_spin p fuel [] (by simp)]
  · simp [AllMatch, Empty_elements, AllMatchLoop, recv_nil_open, Outcome.map]
  · simp [AnyMatch, Empty_elements, AnyMatchLoop, recv_nil_open, Outcome.map]

/-- C8, as stated, fails on `Of(nil)` with the always-true predicate:
`AnyMatch` returns `true`, and `FindFirst` never returns, so there is no
Optional whose `IsPresent()` could equal it. -/
theorem C8_anyMatch_findFirst_counterexample :
    AnyMatch 2 (Of ([none] : List (Option Nat))) (fun _ => true) = some (Outcome.returned true) ∧
      ∀ fuel, FindFirst fuel (Of ([none] : List (Option Nat))) (fun _ => true) = none := by
  refine ⟨by decide, fun fuel => ?_⟩
  simp [FindFirst, Of_elements,
    FindFirstLoop_spin (fun _ : Option Nat => true) fuel [none] ZeroValue.zero isNil_zero
      (by simp [Nillable.isNil])]

/-- C8, amended: when some non-nil element of `S` satisfies `p`, both calls
return (with any fuel above `len(S)`) and `AnyMatch(Of(S...), p)` equals
`FindFirst(Of(S...), p).IsPresent()`, both being `true`. -/
theorem C8_anyMatch_eq_findFirst_isPresent {T : Type} [Nillable T] (S : List T) (p : T → Bool)
    (h : ∃ x ∈ S, p x = true ∧ Nillable.isNil x = false) (fuel : Nat) (hfuel : S.length < fuel) :
    ∃ o, FindFirst fuel (Of S) p = some (Outcome.returned o) ∧
      AnyMatch fuel (Of S) p = some (Outcome.returned (optional.IsPresent o)) ∧
      optional.IsPresent o = true := by
  have hq : ∃ x ∈ S, (fun v => p v && !Nillable.isNil v) x = true := by
    obtain ⟨x, hx, hpx, hnil⟩ := h
    exact ⟨x, hx, by simp [hpx, hnil]⟩
  obtain ⟨pre, x, rest, hS, hpre, hx⟩ := exists_first_split _ S hq
  simp only [Bool.and_eq_true, Bool.not_eq_true', Bool.and_eq_false_imp] at hpre hx
  have hlen : pre.length + 1 + rest.length = S.length := by simp [hS]; omega
  have hff := FindFirstLoop_found p pre x rest true ZeroValue.zero isNil_zero
    (fun z hz hpz => by simpa using hpre z hz hpz) hx.1 hx.2 fuel (by omega)
  obtain ⟨pre2, y, rest2, hS2, hpre2, hy⟩ := exists_first_split p S ⟨x, by simp [hS], hx.1⟩
  have hlen2 : pre2.length + 1 + rest2.length = S.length := by simp [hS2]; omega
  have ham := AnyMatchLoop_found p pre2 y rest2 true hpre2 hy fuel (by omega)
  refine ⟨optional.Of x, ?_, ?_, ?_⟩
  · simp only [FindFirst, Of_elements]
    rw [hS, hff]
    rfl
  · have hpres : optional.IsPresent (optional.Of x) = true := by
      simp [optional.IsPresent, optional.Of, hx.2]
    simp only [AnyMatch, Of_elements, hpres]
    rw [hS2, ham]
    rfl
  · simp [optional.IsPresent, optional.Of, hx.2]

/-- C8 amended, on `Of(nil, 1, 2)` with the always-true predicate. -/
theorem C8_anyMatch_eq_findFirst_isPresent_witness :
    ∃ o, FindFirst 4 (Of [none, some 1, some 2]) (fun _ => true) = some (Outcome.returned o) ∧
      AnyMatch 4 (Of [none, some 1, some 2]) (fun _ => true)
        = some (Outcome.returned (optional.IsPresent o)) ∧
      optional.IsPresent o = true :=
  C8_anyMatch_eq_findFirst_isPresent [none, some 1, some 2] (fun _ => true)
    ⟨some 1, by simp, rfl, rfl⟩ 4 (by decide)

/-- C9: if some element of `S` satisfies `p`, `AnyMatch(Of(S...), p)` returns
`true`, and if some element of `S` fails `p`, `AllMatch(Of(S...), p)` returns
`false`.  In both cases the loop is left right after the first deciding
element `x` of `S = pre ++ x :: rest` has been received (`len(pre) + 2`
evaluations of the loop condition suffice), with `rest` still unreceived on
the channel, and whether or not the channel is ever closed. -/
theorem C9_match_short_circuit {T : Type} (S : List T) (p : T → Bool) :
    ((∃ x ∈ S, p x = true) →
      ∃ pre x rest, S = pre ++ x :: rest ∧ (∀ z ∈ pre, p z = false) ∧ p x = true ∧
        ∀ fuel, pre.length + 2 ≤ fuel →
          AnyMatch fuel (Of S) p = some (Outcome.returned true) ∧
          ∀ c, AnyMatchLoop p fuel ⟨S, c⟩ false = some (Outcome.returned (true, ⟨rest, c⟩))) ∧
    ((∃ x ∈ S, p x = false) →
      ∃ pre x rest, S = pre ++ x :: rest ∧ (∀ z ∈ pre, p z = true) ∧ p x = false ∧
        ∀ fuel, pre.length + 2 ≤ fuel →
          AllMatch fuel (Of S) p = some (Outcome.returned false) ∧
          ∀ c, AllMatchLoop p fuel ⟨S, c⟩ true = some (Outcome.returned (false, ⟨rest, c⟩))) := by
  constructor
  · intro h
    obtain ⟨pre, x, rest, hS, hpre, hx⟩ := exists_first_split p S h
    refine ⟨pre, x, rest, hS, hpre, hx, fun fuel hfuel => ⟨?_, fun c => ?_⟩⟩
    · simp only [AnyMatch, Of_elements]
      rw [hS, AnyMatchLoop_found p pre x rest true hpre hx fuel hfuel]
      rfl
    · rw [hS, AnyMatchLoop_found p pre x rest c hpre hx fuel hfuel]
  · intro h
    have h2 : ∃ x ∈ S, (fun v => !p v) x = true := by
      obtain ⟨x, hx, hpx⟩ := h
      exact ⟨x, hx, by simp [hpx]⟩
    obtain ⟨pre, x, rest, hS, hpre, hx⟩ := exists_first_split _ S h2
    simp only [Bool.not_eq_true', Bool.not_eq_false'] at hpre hx
    refine ⟨pre, x, rest, hS, hpre, hx, fun fuel hfuel => ⟨?_, fun c => ?_⟩⟩
    · simp only [AllMatch, Of_elements]
      rw [hS, AllMatchLoop_found p pre x rest true hpre hx fuel hfuel]
      rfl
    · rw [hS, AllMatchLoop_found p pre x rest c hpre hx fuel hfuel]

/-! ## Draining terminals -/

theorem Reduce_closed {I O : Type} [ZeroValue O] (l : List I) (f : O → I → O) :
    Reduce (⟨⟨l, true⟩⟩ : Stream I) f
      = Outcome.returned (optional.Of (l.foldl f ZeroValue.zero)) := by
  simp [Reduce, forRange, forRangeQueue_eq_foldl]

/-- C10, as stated, fails over the empty source: `Reduce(Of(), f)` returns an
Optional that holds the zero value `nil`, and `IsPresent()` is false for it. -/
theorem C10_reduce_counterexample :
    ∃ o, Reduce (Of ([] : List Nat)) (fun (acc : Option Nat) n => some (acc.getD 0 + n))
        = Outcome.returned o ∧
      o.value = none ∧ optional.IsPresent o = false ∧ optional.IsEmpty o = true :=
  ⟨optional.Of none, by decide, rfl, rfl, rfl⟩

/-- C10, amended: `Reduce(Of(S...), f)` returns an Optional whose value is the
left fold of `f` over `S` from the zero value of the result type;
`IsPresent()` is true for it exactly when that fold is not the zero value
`nil`, and over the empty source the Optional holds the zero value and
`IsPresent()` is false. -/
theorem C10_reduce_fold {I O : Type} [Nillable O] (S : List I) (f : O → I → O) :
    ∃ o, Reduce (Of S) f = Outcome.returned o ∧ o.value = S.foldl f ZeroValue.zero ∧
      (optional.IsPresent o = true ↔ S.foldl f ZeroValue.zero ≠ ZeroValue.zero) ∧
      (S = [] → o.value = ZeroValue.zero ∧ optional.IsPresent o = false) := by
  refine ⟨optional.Of (S.foldl f ZeroValue.zero), ?_, rfl, ?_, ?_⟩
  · rw [Stream_eta (Of S), Of_elements]
    exact Reduce_closed S f
  · simp [optional.IsPresent, optional.Of, ← Nillable.isNil_iff]
  · rintro rfl
    simp [optional.IsPresent, optional.Of, isNil_zero]

theorem ReduceWithIdentity_closed {I O : Type} (l : List I) (identity : O) (f : O → I → O) :
    ReduceWithIdentity (⟨⟨l, true⟩⟩ : Stream I) identity f
      = Outcome.returned (l.foldl f identity) := by
  simp [ReduceWithIdentity, forRange, forRangeQueue_eq_foldl]

/-- C11: `ReduceWithIdentity(Of(S...), id, f)` returns the left fold
`f(...f(f(id, s1), s2)..., sn)`, unwrapped; over the empty source it returns
`id` unchanged. -/
theorem C11_reduceWithIdentity_fold {I O : Type} (S : List I) (identity : O) (f : O → I → O) :
    ReduceWithIdentity (Of S) identity f = Outcome.returned (S.foldl f identity) ∧
      ReduceWithIdentity (Of ([] : List I)) identity f = Outcome.returned identity := by
  constructor
  · rw [Stream_eta (Of S), Of_elements]
    exact ReduceWithIdentity_closed S identity f
  · rw [Stream_eta (Of ([] : List I)), Of_elements]
    exact ReduceWithIdentity_closed [] identity f

/-- C17 fails on the code: the channel of `Empty()` is `nil`, so the `range`
loop of `ToSlice` and of `ForEach` parks forever on its first receive and
neither call returns (the executor is indeed never invoked); the sibling
`Of()` does close its channel and `Of().ToSlice()` returns the empty slice. -/
theorem C17_empty_stream_blocks {σ T : Type} (executor : T → σ → σ) (world : σ) :
    ToSlice (Empty : Stream T) = Outcome.blocked ∧
      ForEach (Empty : Stream T) executor world = Outcome.blocked ∧
      ToSlice (Of ([] : List T)) = Outcome.returned [] ∧
      ForEach (Of ([] : List T)) executor world = Outcome.returned world := by
  refine ⟨rfl, rfl, ?_, ?_⟩
  · rw [Stream_eta (Of ([] : List T)), Of_elements]
    exact ToSlice_closed []
  · simp [ForEach, Of_elements, forRange, forRangeQueue]

/-- C18: `Of(e1, ..., en).ToSlice()` returns exactly `[e1, ..., en]`: the same
elements, the same count, in argument order. -/
theorem C18_of_toSlice {T : Type} (S : List T) :
    ∃ l, ToSlice (Of S) = Outcome.returned l ∧ l = S ∧ l.length = S.length := by
  refine ⟨S, ?_, rfl, rfl⟩
  rw [Stream_eta (Of S), Of_elements]
  exact ToSlice_closed S

/-! ## Optional -/

theorem IsEmpty_Empty {T : Type} [Nillable T] :
    optional.IsEmpty (optional.Empty : optional.Optional T) = true := by
  simp [optional.IsEmpty, optional.Empty, isNil_zero]

theorem IsPresent_eq_not_IsEmpty {T : Type} [Nillable T] (o : optional.Optional T) :
    optional.IsPresent o = !optional.IsEmpty o := rfl

/-- With a function that has no side effects the calls leave the state of the
caller alone and give what the pure embedding gives. -/
theorem effect_pure {σ I O : Type} [Nillable I] [Nillable O] (o : optional.Optional I)
    (f : I → O) (g : I → optional.Optional O) (p : I → Bool) (sup : Unit → optional.Optional I)
    (world : σ) :
    optional.effect.Map o (fun v w => (f v, w)) world = (optional.Map o f, world) ∧
      optional.effect.FlatMap o (fun v w => (g v, w)) world = (optional.FlatMap o g, world) ∧
      optional.effect.Filter o (fun v w => (p v, w)) world = (optional.Filter o p, world) ∧
      optional.effect.Or o (fun w => (sup (), w)) world = (optional.Or o sup, world) := by
  cases h : optional.IsEmpty o <;> cases hp : p o.value <;>
    simp [optional.effect.Map, optional.effect.FlatMap, optional.effect.Filter,
      optional.effect.Or, optional.Map, optional.FlatMap, optional.Filter, optional.Or, h, hp]

/-- C12, as stated, fails for the `nil` value: `Of(nil).Get()` returns the
absent-value error and `Of(nil).IsPresent()` is false. -/
theorem C12_get_counterexample :
    optional.Get (optional.Of (none : Option Nat))
        = (none, some "cannot get value from empty optional") ∧
      optional.IsPresent (optional.Of (none : Option Nat)) = false := by
  exact ⟨rfl, rfl⟩

/-- C12, amended: for every value `v` other than `nil`, `Of(v).Get()` returns
`(v, no error)` and `Of(v).IsPresent()` is true; `Empty().Get()` returns the
absent-value error; presence is decided by comparing the stored value with
`nil`, for every `v`. -/
theorem C12_get_roundtrip {T : Type} [Nillable T] (v : T) (hv : Nillable.isNil v = false) :
    optional.Get (optional.Of v) = (v, none) ∧ optional.IsPresent (optional.Of v) = true ∧
      optional.Get (optional.Empty : optional.Optional T)
        = (ZeroValue.zero, some "cannot get value from empty optional") ∧
      ∀ u : T, optional.IsPresent (optional.Of u) = !Nillable.isNil u := by
  refine ⟨?_, ?_, ?_, fun u => rfl⟩
  · simp [optional.Get, optional.IsEmpty, optional.Of, hv]
  · simp [optional.IsPresent, optional.Of, hv]
  · simp only [optional.Get, IsEmpty_Empty, if_true]

/-- C12 amended, at the value `7` boxed in an interface. -/
theorem C12_get_roundtrip_witness :
    optional.Get (optional.Of (some 7)) = (some 7, none) ∧
      optional.IsPresent (optional.Of (some 7)) = true ∧
      optional.Get (optional.Empty : optional.Optional (Option Nat))
        = (ZeroValue.zero, some "cannot get value from empty optional") ∧
      ∀ u : Option Nat, optional.IsPresent (optional.Of u) = !Nillable.isNil u :=
  C12_get_roundtrip (some 7) rfl

/-- C13: on an empty Optional, `Map(f)`, `FlatMap(f)` and `Filter(p)` return
an empty Optional and do not invoke the function: whatever side effects the
function has, the state of the caller is left as it was, and the result is the
same for every function. -/
theorem C13_empty_never_invokes {σ I O : Type} [Nillable I] [Nillable O]
    (o : optional.Optional I) (h : optional.IsEmpty o = true)
    (f : I → σ → O × σ) (g : I → σ → optional.Optional O × σ) (p : I → σ → Bool × σ)
    (world : σ) :
    optional.effect.Map o f world = (optional.Empty, world) ∧
      optional.effect.FlatMap o g world = (optional.Empty, world) ∧
      optional.effect.Filter o p world = (optional.Empty, world) ∧
      optional.IsEmpty (optional.Empty : optional.Optional O) = true ∧
      optional.IsEmpty (optional.Empty : optional.Optional I) = true := by
  simp [optional.effect.Map, optional.effect.FlatMap, optional.effect.Filter, h, IsEmpty_Empty]

/-- C13 on `Empty()`, with functions that count their invocations: the count
stays at `0`. -/
theorem C13_empty_never_invokes_witness :
    optional.effect.Map (optional.Empty : optional.Optional (Option Nat))
        (fun v (calls : Nat) => (v, calls + 1)) 0 = (optional.Empty, 0) ∧
      optional.effect.FlatMap (optional.Empty : optional.Optional (Option Nat))
        (fun v (calls : Nat) => (optional.Of v, calls + 1)) 0 = (optional.Empty, 0) ∧
      optional.effect.Filter (optional.Empty : optional.Optional (Option Nat))
        (fun _ (calls : Nat) => (true, calls + 1)) 0 = (optional.Empty, 0) ∧
      optional.IsEmpty (optional.Empty : optional.Optional (Option Nat)) = true ∧
      optional.IsEmpty (optional.Empty : optional.Optional (Option Nat)) = true :=
  C13_empty_never_invokes (optional.Empty : optional.Optional (Option Nat)) rfl _ _ _ 0

/-- C14: if `o` is present, `Or(o, s)` returns an Optional with the value and
presence of `o` and does not invoke `s` (the state of the caller is left as it
was, whatever `s` does); if `o` is empty, `Or(o, s)` is exactly the call
`s()`. -/
theorem C14_or {σ T : Type} [Nillable T] (o : optional.Optional T)
    (s : σ → optional.Optional T × σ) (world : σ) :
    (optional.IsPresent o = true →
      optional.effect.Or o s world = (o, world) ∧
      optional.IsPresent (optional.effect.Or o s world).1 = optional.IsPresent o ∧
      (optional.effect.Or o s world).1.value = o.value) ∧
    (optional.IsEmpty o = true → optional.effect.Or o s world = s world) := by
  constructor
  · intro h
    have he : optional.IsEmpty o = false := by
      simpa [IsPresent_eq_not_IsEmpty] using h
    have : optional.effect.Or o s world = (o, world) := by
      simp [optional.effect.Or, he, optional.Of]
    simp [this]
  · intro h
    simp [optional.effect.Or, h]

/-- C15, as stated, fails for the `nil` value: `FlatMap(Of(nil), f)` is the
empty Optional and not `f(nil)`. -/
theorem C15_flatMap_counterexample :
    optional.FlatMap (optional.Of (none : Option Nat)) (fun _ => optional.Of (some 1))
        = (optional.Empty : optional.Optional (Option Nat)) ∧
      optional.FlatMap (optional.Of (none : Option Nat)) (fun _ => optional.Of (some 1))
        ≠ (fun _ : Option Nat => optional.Of (some 1)) none := by
  decide

/-- C15, amended: for every value `v` other than `nil`, `FlatMap(Of(v), f)` is
`f(v)` itself; `FlatMap` of an empty Optional is empty. -/
theorem C15_flatMap_left_identity {I O : Type} [Nillable I] [Nillable O] (v : I)
    (f : I → optional.Optional O) (hv : Nillable.isNil v = false) :
    optional.FlatMap (optional.Of v) f = f v ∧
      ∀ o : optional.Optional I, optional.IsEmpty o = true →
        optional.FlatMap o f = optional.Empty ∧
        optional.IsEmpty (optional.FlatMap o f) = true := by
  constructor
  · simp [optional.FlatMap, optional.IsEmpty, optional.Of, hv]
  · intro o ho
    simp [optional.FlatMap, ho, IsEmpty_Empty]

/-- C15 amended, at the value `3` boxed in an interface. -/
theorem C15_flatMap_left_identity_witness :
    optional.FlatMap (optional.Of (some 3)) (fun v => optional.Of (v.map (· + 1)))
        = (fun v : Option Nat => optional.Of (v.map (· + 1))) (some 3) ∧
      ∀ o : optional.Optional (Option Nat), optional.IsEmpty o = true →
        optional.FlatMap o (fun v => optional.Of (v.map (· + 1))) = optional.Empty ∧
        optional.IsEmpty (optional.FlatMap o fun v => optional.Of (v.map (· + 1))) = true :=
  C15_flatMap_left_identity (some 3) (fun v => optional.Of (v.map (· + 1))) rfl

/-- C16: `Filter(o, p)` is empty if `o` is empty or `p(value)` is false, and
otherwise it is an Optional with the presence and the value of `o`. -/
theorem C16_filter {T : Type} [Nillable T] (o : optional.Optional T) (p : T → Bool) :
    (optional.IsEmpty o = true ∨ p o.value = false →
      optional.Filter o p = optional.Empty ∧ optional.IsEmpty (optional.Filter o p) = true) ∧
    (optional.IsEmpty o = false → p o.value = true →
      optional.Filter o p = o ∧
      optional.IsPresent (optional.Filter o p) = optional.IsPresent o ∧
      (optional.Filter o p).value = o.value) := by
  constructor
  · intro h
    have : optional.Filter o p = optional.Empty := by
      rcases h with h | h <;> simp [optional.Filter, h]
    simp [this, IsEmpty_Empty]
  · intro he hp
    have : optional.Filter o p = o := by
      simp [optional.Filter, he, hp, optional.Of]
    simp [this]

/-- C20, as stated, fails when `f` returns `nil`: `Map(Map(Of(1), f), g)` is
empty, `g` is not invoked, and `Map(Of(1), x -> g(f(x)))` holds `g(nil)`. -/
theorem C20_map_composition_counterexample :
    optional.Map (optional.Map (optional.Of (some 1)) (fun _ => (none : Option Nat)))
        (fun _ => some 7) = (optional.Empty : optional.Optional (Option Nat)) ∧
      optional.Map (optional.Of (some 1)) (fun x => (fun _ => some 7) ((fun _ => (none : Option Nat)) x))
        = optional.Of (some 7) ∧
      optional.IsPresent (optional.Map (optional.Map (optional.Of (some 1))
        (fun _ => (none : Option Nat))) (fun _ => some 7)) = false ∧
      optional.IsPresent (optional.Map (optional.Of (some 1))
        (fun x => (fun _ => some 7) ((fun _ => (none : Option Nat)) x))) = true := by
  decide

/-- C20, amended: `Map(Map(o, f), g)` is the same Optional as
`Map(o, x -> g(f(x)))` exactly when `o` is empty, or `f` of its value is not
`nil`, or `g` sends that `nil` to the zero value. -/
theorem C20_map_composition {I M O : Type} [Nillable I] [Nillable M] [Nillable O]
    (o : optional.Optional I) (f : I → M) (g : M → O) :
    optional.Map (optional.Map o f) g = optional.Map o (fun x => g (f x)) ↔
      (optional.IsEmpty o = true ∨ Nillable.isNil (f o.value) = false ∨
        g (f o.value) = ZeroValue.zero) := by
  cases he : optional.IsEmpty o
  · have h1 : optional.Map o f = optional.Of (f o.value) := by simp [optional.Map, he]
    have h2 : optional.Map o (fun x => g (f x)) = optional.Of (g (f o.value)) := by
      simp [optional.Map, he]
    have h3 : optional.IsEmpty (optional.Of (f o.value)) = Nillable.isNil (f o.value) := rfl
    rw [h1, h2]
    cases hn : Nillable.isNil (f o.value)
    · have h4 : optional.Map (optional.Of (f o.value)) g = optional.Of (g (f o.value)) := by
        unfold optional.Map
        rw [h3, hn]
        rfl
      rw [h4]
      simp
    · have h5 : optional.Map (optional.Of (f o.value)) g = optional.Empty := by
        unfold optional.Map
        rw [h3, hn]
        rfl
      rw [h5]
      constructor
      · intro h
        exact Or.inr (Or.inr (congrArg optional.Optional.value h).symm)
      · intro h
        rcases h with h | h | h
        · exact absurd h (by simp)
        · exact absurd h (by simp)
        · show (⟨ZeroValue.zero⟩ : optional.Optional O) = ⟨g (f o.value)⟩
          rw [h]
  · simp [optional.Map, he, IsEmpty_Empty]

/-! ## Pipelines with side effects -/

theorem runQueue_append {σ T : Type} (q1 q2 : List ((σ → σ) × T)) (world : σ) :
    effect.runQueue (q1 ++ q2) world = effect.runQueue q2 (effect.runQueue q1 world) := by
  simp [effect.runQueue, List.foldl_append]

theorem runQueue_cons {σ T : Type} (step : (σ → σ) × T) (q : List ((σ → σ) × T)) (world : σ) :
    effect.runQueue (step :: q) world = effect.runQueue q (step.1 world) := rfl

theorem effect_foldl_send {σ T : Type} (l : List T) (ch : effect.Chan σ T) :
    l.foldl (fun ch element => ch.send id element) ch
      = ⟨ch.queue ++ l.map (fun x => (id, x)), ch.final, ch.closed⟩ := by
  induction l generalizing ch with
  | nil => simp
  | cons element rest ih =>
    rw [List.foldl_cons, ih]
    simp [effect.Chan.send]

/-- The channel of `Of(S...)` delivers `S`, with no side effects. -/
theorem effect_Of_elements {σ T : Type} (S : List T) :
    (effect.Of S : effect.Stream σ T).elements = ⟨S.map (fun x => (id, x)), id, true⟩ := by
  simp [effect.Of, effect.goProducer, effect_foldl_send, effect.Chan.make]

/-- The goroutine of `Peek` sends every value it receives, and has invoked the
executor on each of them, after the effects the value carried. -/
theorem foldl_peekBody {σ T : Type} (executor : T → σ → σ) (q : List ((σ → σ) × T))
    (out : effect.Chan σ T) (work : σ → σ) :
    ((q.foldl (effect.receiveStep (effect.peekBody executor)) (out, work)).1.queue.map Prod.snd
        = out.queue.map Prod.snd ++ q.map Prod.snd) ∧
      ∀ world,
        (q.foldl (effect.receiveStep (effect.peekBody executor)) (out, work)).2
            (effect.runQueue
              (q.foldl (effect.receiveStep (effect.peekBody executor)) (out, work)).1.queue world)
          = q.foldl (fun w step => executor step.2 (step.1 w))
              (work (effect.runQueue out.queue world)) := by
  induction q generalizing out work with
  | nil => simp
  | cons step rest ih =>
    have hstep : effect.receiveStep (effect.peekBody executor) (out, work) step
        = (out.send (executor step.2 ∘ (step.1 ∘ work)) step.2, id) := rfl
    rw [List.foldl_cons, hstep]
    obtain ⟨hval, heff⟩ := ih (out.send (executor step.2 ∘ (step.1 ∘ work)) step.2) id
    refine ⟨?_, fun world => ?_⟩
    · rw [hval]
      simp [effect.Chan.send]
    · rw [heff world]
      simp [effect.Chan.send, runQueue_append, effect.runQueue]

/-- The goroutine of `Limit` sends the values below the limit, and everything
carried by the values it received, sent or not, is behind it. -/
theorem foldl_limitBody {σ T : Type} (limit : Nat) (q : List ((σ → σ) × T))
    (out : effect.Chan σ T) (i : Nat) (work : σ → σ) (h : i + q.length < uintSize) :
    ((q.foldl (effect.receiveStep (effect.limitBody limit)) ((out, i), work)).1.1.queue.map
          Prod.snd
        = out.queue.map Prod.snd ++ (q.take (limit - i)).map Prod.snd) ∧
      ∀ world,
        (q.foldl (effect.receiveStep (effect.limitBody limit)) ((out, i), work)).2
            (effect.runQueue
              (q.foldl (effect.receiveStep (effect.limitBody limit)) ((out, i), work)).1.1.queue
              world)
          = effect.runQueue q (work (effect.runQueue out.queue world)) := by
  induction q generalizing out i work with
  | nil => simp [effect.runQueue]
  | cons step rest ih =>
    have hlen : i + 1 + rest.length < uintSize := by
      simp only [List.length_cons] at h
      omega
    have hmod : (i + 1) % uintSize = i + 1 := Nat.mod_eq_of_lt (by omega)
    by_cases hi : i < limit
    · have hstep : effect.receiveStep (effect.limitBody limit) ((out, i), work) step
          = ((out.send (step.1 ∘ work) step.2, i + 1), id) := by
        simp [effect.receiveStep, effect.limitBody, hi, hmod]
      rw [List.foldl_cons, hstep]
      obtain ⟨hval, heff⟩ := ih (out.send (step.1 ∘ work) step.2) (i + 1) id hlen
      refine ⟨?_, fun world => ?_⟩
      · have h1 : limit - i = (limit - (i + 1)) + 1 := by omega
        rw [hval, h1, List.take_succ_cons]
        simp [effect.Chan.send]
      · rw [heff world]
        simp [effect.Chan.send, runQueue_append, effect.runQueue]
    · have hstep : effect.receiveStep (effect.limitBody limit) ((out, i), work) step
          = ((out, i + 1), step.1 ∘ work) := by
        simp [effect.receiveStep, effect.limitBody, hi, hmod]
      rw [List.foldl_cons, hstep]
      obtain ⟨hval, heff⟩ := ih out (i + 1) (step.1 ∘ work) hlen
      refine ⟨?_, fun world => ?_⟩
      · have h0 : limit - i = 0 := by omega
        have h1 : limit - (i + 1) = 0 := by omega
        rw [hval, h0, h1]
        simp
      · rw [heff world]
        simp [effect.runQueue]

/-- What `Peek` does to a stream: the same values, and the executor invoked on
every one of them, in order. -/
theorem effect_Peek_elements {σ T : Type} (s : effect.Stream σ T) (executor : T → σ → σ) :
    (effect.Peek s executor).elements.queue.map Prod.snd = s.elements.queue.map Prod.snd ∧
      (effect.Peek s executor).elements.closed = s.elements.closed ∧
      ∀ world, (effect.Peek s executor).elements.run world
        = s.elements.final
            (s.elements.queue.foldl (fun w step => executor step.2 (step.1 w)) world) := by
  obtain ⟨hval, heff⟩ := foldl_peekBody executor s.elements.queue effect.Chan.make id
  refine ⟨?_, ?_, fun world => ?_⟩
  · simpa [effect.Peek, effect.goProducer, effect.forRange, forRangeQueue_eq_foldl,
      effect.Chan.make] using hval
  · simp [effect.Peek, effect.goProducer, effect.forRange, forRangeQueue_eq_foldl]
  · have := heff world
    simp only [effect.Chan.make, effect.runQueue, List.foldl_nil, id] at this
    simp [effect.Peek, effect.goProducer, effect.forRange, forRangeQueue_eq_foldl,
      effect.Chan.run, effect.runQueue, effect.Chan.make, this]

/-- What `Limit` does to a stream: the first `limit` values, and all the side
effects of the stream, those carried by the values past the limit included. -/
theorem effect_Limit_elements {σ T : Type} (s : effect.Stream σ T) (limit : Nat)
    (h : s.elements.queue.length < uintSize) :
    (effect.Limit s limit).elements.queue.map Prod.snd
        = (s.elements.queue.map Prod.snd).take limit ∧
      (effect.Limit s limit).elements.closed = s.elements.closed ∧
      ∀ world, (effect.Limit s limit).elements.run world = s.elements.run world := by
  obtain ⟨hval, heff⟩ :=
    foldl_limitBody limit s.elements.queue effect.Chan.make 0 id (by omega)
  refine ⟨?_, ?_, fun world => ?_⟩
  · simpa [effect.Limit, effect.goProducer, effect.forRange, forRangeQueue_eq_foldl,
      effect.Chan.make, List.map_take] using hval
  · simp [effect.Limit, effect.goProducer, effect.forRange, forRangeQueue_eq_foldl]
  · have := heff world
    simp only [effect.Chan.make, effect.runQueue, List.foldl_nil, id] at this
    simp [effect.Limit, effect.goProducer, effect.forRange, forRangeQueue_eq_foldl,
      effect.Chan.run, effect.runQueue, effect.Chan.make, this]

theorem effect_toSlice_loop {σ T : Type} (q : List ((σ → σ) × T)) (output : List T)
    (world : σ) :
    q.foldl (fun (st : List T × σ) step => (st.1 ++ [step.2], step.1 st.2)) (output, world)
      = (output ++ q.map Prod.snd, effect.runQueue q world) := by
  induction q generalizing output world with
  | nil => simp [effect.runQueue]
  | cons step rest ih =>
    rw [List.foldl_cons, ih]
    simp [effect.runQueue]

/-- Draining a closed stream returns its values, all its side effects done. -/
theorem effect_ToSlice_closed {σ T : Type} (s : effect.Stream σ T) (world : σ)
    (h : s.elements.closed = true) :
    effect.ToSlice s world
      = Outcome.returned (s.elements.queue.map Prod.snd, s.elements.run world) := by
  simp [effect.ToSlice, forRangeQueue_eq_foldl, effect_toSlice_loop, h, effect.Chan.run]

/-- Without the side effects the stages are the stages of the plain
embedding: `Of` delivers the same values, `Peek` passes every value through,
`Limit` keeps the same values and `ToSlice` returns the same slice. -/
theorem effect_erase {σ T : Type} (S : List T) (s : effect.Stream σ T) (executor : T → σ → σ)
    (limit : Nat) (world : σ) (h : s.elements.queue.length < uintSize) :
    effect.erase (effect.Of S : effect.Stream σ T) = Of S ∧
      effect.erase (effect.Peek s executor) = effect.erase s ∧
      effect.erase (effect.Limit s limit) = Limit (effect.erase s) limit ∧
      (effect.ToSlice s world).map Prod.fst = ToSlice (effect.erase s) := by
  refine ⟨?_, ?_, ?_, ?_⟩
  · rw [Stream_eta (Of S), Of_elements]
    simp [effect.erase, effect_Of_elements, Function.comp_def]
  · obtain ⟨hval, hclosed, _⟩ := effect_Peek_elements s executor
    simp [effect.erase, hval, hclosed]
  · obtain ⟨hval, hclosed, _⟩ := effect_Limit_elements s limit h
    rw [Stream_eta (Limit (effect.erase s) limit),
      Limit_elements _ _ (by simpa [effect.erase] using h)]
    simp [effect.erase, hval, hclosed]
  · cases hc : s.elements.closed
    · simp [effect.ToSlice, forRangeQueue_eq_foldl, hc, effect.erase, ToSlice_open, Outcome.map]
    · rw [effect_ToSlice_closed s world hc]
      simp [effect.erase, hc, ToSlice_closed, Outcome.map]

/-- C19: `Limit` goes on receiving after its limit is reached.  For a list
that fits a Go slice, draining `Limit(Peek(Of(S...), f), n)` with `ToSlice`
returns the first `min(n, len(S))` elements of `S`, and `f` has been invoked
on every element of `S`, in order: the state of the caller is the fold of `f`
over all of `S`, and with an `f` that appends its argument to a log the log
is `S`. -/
theorem C19_limit_keeps_pulling {σ T : Type} (S : List T) (n : Nat) (executor : T → σ → σ)
    (world : σ) (hS : S.length < uintSize) :
    effect.ToSlice (effect.Limit (effect.Peek (effect.Of S) executor) n) world
        = Outcome.returned (S.take n, S.foldl (fun w x => executor x w) world) ∧
      (S.take n).length = min n S.length ∧
      effect.ToSlice (effect.Limit (effect.Peek (effect.Of S) fun x (log : List T) => log ++ [x]) n)
        [] = Outcome.returned (S.take n, S) := by
  have key : ∀ (τ : Type) (ex : T → τ → τ) (w : τ),
      effect.ToSlice (effect.Limit (effect.Peek (effect.Of S) ex) n) w
        = Outcome.returned (S.take n, S.foldl (fun w x => ex x w) w) := by
    intro τ ex w
    obtain ⟨hPval, hPclosed, hPrun⟩ := effect_Peek_elements (effect.Of S : effect.Stream τ T) ex
    have hlen : (effect.Peek (effect.Of S : effect.Stream τ T) ex).elements.queue.length
        < uintSize := by
      have := congrArg List.length hPval
      simp only [List.length_map, effect_Of_elements] at this
      omega
    obtain ⟨hLval, hLclosed, hLrun⟩ := effect_Limit_elements _ n hlen
    rw [effect_ToSlice_closed _ w (by rw [hLclosed, hPclosed, effect_Of_elements]),
      hLval, hPval, hLrun w, hPrun w]
    simp [effect_Of_elements, List.foldl_map, Function.comp_def]
  refine ⟨key σ executor world, List.length_take n S, ?_⟩
  rw [key (List T) (fun x log => log ++ [x]) []]
  simp [foldl_append_singleton]

/-- C19 at `Of(1,2,3,4,5)` with limit `2` and an executor that logs its
argument: the slice is `[1,2]`, the log is `[1,2,3,4,5]`. -/
theorem C19_limit_keeps_pulling_witness :
    effect.ToSlice (effect.Limit (effect.Peek (effect.Of [1, 2, 3, 4, 5])
        fun x (log : List Nat) => log ++ [x]) 2) []
        = Outcome.returned ([1, 2, 3, 4, 5].take 2,
            [1, 2, 3, 4, 5].foldl (fun (w : List Nat) x => (fun x log => log ++ [x]) x w) []) ∧
      ([1, 2, 3, 4, 5].take 2).length = min 2 [1, 2, 3, 4, 5].length ∧
      effect.ToSlice (effect.Limit (effect.Peek (effect.Of [1, 2, 3, 4, 5])
        fun x (log : List Nat) => log ++ [x]) 2) []
        = Outcome.returned ([1, 2, 3, 4, 5].take 2, [1, 2, 3, 4, 5]) :=
  C19_limit_keeps_pulling [1, 2, 3, 4, 5] 2 (fun x log => log ++ [x]) [] (by simp [uintSize])

/-! ## The concrete scenarios of the specification -/

theorem scenario_filter :
    ToSlice (Filter (Of [1, 2, 3, 4, 5]) fun x => x % 2 == 0) = Outcome.returned [2, 4] := by
  decide

theorem scenario_map : ToSlice (Map (Of [1, 2, 3]) fun x => 2 * x) = Outcome.returned [2, 4, 6] := by
  decide

theorem scenario_flatMap_nil_substream :
    ToSlice (FlatMap (Of [1, 2]) fun _ => (Empty : Stream Nat)) = Outcome.blocked := by
  decide

theorem scenario_anyMatch : AnyMatch 3 (Of [1, 2, 3]) (fun x => decide (1 < x))
    = some (Outcome.returned true) := by
  decide

theorem scenario_allMatch : AllMatch 2 (Of [1, 2, 3]) (fun x => decide (1 < x))
    = some (Outcome.returned false) := by
  decide

end GoMonad
